import Mathlib

/-!
Verification of the chunk-list / freelist storage substrate.

This file gives a shallow embedding of the core data structures and
algorithms of the repository and settles the specified properties about
them:

* `Chunk` with `push`, `pop`, `insert`, `remove`, `split`
  (src/chunk.rs `Chunk<T, L>`, link discipline `usize`);
* the `max_by_key_with_cutoff` iterator fold (src/index/slicelist.rs);
* the owning sequence's mutable cursor and its `search`
  (src/anchor.rs `AnchorIteratorMut`, `ChunkMut`);
* the self-hosting freelist: `FreeList::new`, `FreeList::free`,
  `FreeList::allocate` (src/freelist.rs), together with the older
  `post_adj` classification of src/index/freelist.rs.

Machine integers (`u16`, `u32`, `usize`) are modelled as `Nat`; the values
involved stay far below the respective moduli on every path reasoned about,
and the one subtraction that could underflow in the source
(`last.len -= 1` in the overflow split) is modelled as an explicit panic.
Panics and out-of-bounds accesses are modelled with `Option` (`none`
is a panic).  Recursion in `FreeList::free` is bounded by explicit fuel;
running out of fuel is also `none`.
-/

namespace CL

/-- Model of the page-sized chunk (src/chunk.rs `Chunk<T, L>`), with the
slab-index link discipline (`usize`, `usize::MAX` as the empty sentinel)
rendered as `Option Nat`.  `cap` models the type-determined `capacity()`;
`elems` models the initialized prefix `buf[0 .. len)` of the byte buffer, so
`len` of the source is `elems.length`. -/
structure Chunk (α : Type) where
  cap : Nat
  elems : List α
  next_hint : Option Nat
deriving Repr, DecidableEq

/-- `Chunk::initialize`: zeroed buffer, `len = 0`, `next_hint = empty`. -/
def Chunk.init (α : Type) (cap : Nat) : Chunk α := ⟨cap, [], none⟩

/-- `Chunk::push`: appends if there is room, otherwise returns the value. -/
def Chunk.push (c : Chunk α) (value : α) : Chunk α × Option α :=
  if c.elems.length < c.cap then
    ({ c with elems := c.elems ++ [value] }, none)
  else
    (c, some value)

/-- `Chunk::pop`: removes and returns the last value. -/
def Chunk.pop (c : Chunk α) : Chunk α × Option α :=
  match c.elems.getLast? with
  | none => (c, none)
  | some last => ({ c with elems := c.elems.dropLast }, some last)

/-- `Chunk::insert`: shifts `[index, len)` up by one and writes the element
when `index <= len` and the chunk is not full; otherwise the element is
returned unchanged (the source checks `index_in_bounds && has_space` and
returns `Some(element)` in the else branch — it never panics). -/
def Chunk.insert (c : Chunk α) (index : Nat) (element : α) : Chunk α × Option α :=
  if index ≤ c.elems.length ∧ c.elems.length < c.cap then
    ({ c with elems := c.elems.take index ++ element :: c.elems.drop index }, none)
  else
    (c, some element)

/-- `Chunk::remove`: reads out slot `index` and shifts the tail down, when in
bounds; `none` otherwise. -/
def Chunk.remove (c : Chunk α) (index : Nat) : Chunk α × Option α :=
  match c.elems.get? index with
  | some v => ({ c with elems := c.elems.eraseIdx index }, some v)
  | none => (c, none)

/-- `Chunk::split`: everything `< index` stays in `self`, everything
`>= index` moves into the freshly initialized `other`; panics (`none`) when
`index > len` (the source slices `own[index..self.len()]`).  `self.next_hint`
is not modified and `other.next_hint` is the empty link written by
`Chunk::initialize`. -/
def Chunk.split (c : Chunk α) (index : Nat) : Option (Chunk α × Chunk α) :=
  if index ≤ c.elems.length then
    some ({ c with elems := c.elems.take index },
          { cap := c.cap, elems := c.elems.drop index, next_hint := none })
  else
    none

/-- `IterExt::max_by_key_with_cutoff` loop body (src/index/slicelist.rs):
scan the remaining items, updating the running maximum on strictly greater
keys and breaking as soon as the maximum reaches the cutoff. -/
def maxGo [LinearOrder β] (f : α → β) (cutoff : β) : β × α → List α → β × α
  | m, [] => m
  | m, item :: rest =>
    if m.1 < f item then
      if cutoff ≤ f item then (f item, item) else maxGo f cutoff (f item, item) rest
    else
      maxGo f cutoff m rest

/-- `IterExt::max_by_key_with_cutoff`: the first item whose key reaches the
cutoff (short-circuiting), else an item of maximum key; `none` on an empty
sequence. -/
def maxByKeyWithCutoff [LinearOrder β] (f : α → β) (cutoff : β) : List α → Option α
  | [] => none
  | first :: rest =>
    if cutoff ≤ f first then some first
    else some (maxGo f cutoff (f first, first) rest).2

/-- A free extent (src/freelist.rs `Entry`): a run of `len` consecutive free
slab cells starting at cell `start`. -/
structure Entry where
  start : Nat
  len : Nat
deriving Repr, DecidableEq

/-- Capacity of a `Chunk<Entry, usize>`: `(4096 - 2 - 8) / 8 = 510`. -/
def entryCap : Nat := 510

abbrev EChunk := Chunk Entry

/-- A slab cell: raw/uninitialized storage (`none`) or an initialized
extent-chunk. -/
abbrev Cell := Option EChunk

/-- The freelist (src/freelist.rs `FreeList`): the root chunk's index plus
the slab of cells it manages. -/
structure FreeList where
  initial : Nat
  chunks : List Cell
deriving Repr, DecidableEq

def u32Max : Nat := 4294967295

/-- Read the extent-chunk stored at slab index `i` (reading a raw or
out-of-range cell as a chunk is a panic/UB: `none`). -/
def readChunk (slab : List Cell) (i : Nat) : Option EChunk :=
  (slab.get? i).bind (fun c => c)

/-- Write the extent-chunk at slab index `i`; an out-of-bounds index is an
indexing panic in the source (`none`). -/
def setCell (s : FreeList) (i : Nat) (c : EChunk) : Option FreeList :=
  if i < s.chunks.length then some { s with chunks := s.chunks.set i (some c) } else none

/-- `drop_in_place` of the chunk at slab index `i`: the cell reverts to raw
storage. -/
def clearCell (s : FreeList) (i : Nat) : Option FreeList :=
  if i < s.chunks.length then some { s with chunks := s.chunks.set i none } else none

/-- `FreeList::new`: first checks the slab fits 32-bit indexing
(`try_into::<u32>().expect(..)`), then indexes the root cell (panic when out
of bounds) and initializes only that cell with up to two extents;
`{0, initial}` is pushed unconditionally, `{initial + 1, remain}` only when
`remain > 0` (`remain = len.saturating_sub(initial + 1)`). -/
def FreeList.new (c : List Cell) (initial : Nat) : Option FreeList :=
  if u32Max < c.length then none
  else if initial < c.length then
    let base := Chunk.init Entry entryCap
    let base := (base.push ⟨0, initial⟩).1
    let remain := c.length - (initial + 1)
    let base := if 0 < remain then (base.push ⟨initial + 1, remain⟩).1 else base
    some ⟨initial, c.set initial (some base)⟩
  else none

/-- The stopping test of the chunk walk of `FreeList::free`: the chunk's last
extent reaches `pos` (`start + len >= pos`); a chunk without entries never
stops the walk. -/
def chunkReaches (pos : Nat) (c : EChunk) : Bool :=
  match c.elems.getLast? with
  | some last => decide (pos ≤ last.start + last.len)
  | none => false

/-- The chunk walk of `FreeList::free`: advance while the current chunk's
last extent ends before `pos`, stopping at the first chunk whose last extent
reaches `pos`, or at the final chunk of the sequence (chunks without a last
entry are skipped like any non-matching chunk). -/
def findFreeChunk (slab : List Cell) (pos : Nat) : Nat → Nat → Option Nat
  | 0, _ => none
  | fuel + 1, cur => do
    let c ← readChunk slab cur
    if chunkReaches pos c then
      some cur
    else
      match c.next_hint with
      | none => some cur
      | some nxt => findFreeChunk slab pos fuel nxt

/-- The walk of `FreeList::free` phrased on an extracted chunk chain: the
first chunk that reaches `pos`, or the last chunk. -/
def pickChunk (pos : Nat) : List (Nat × EChunk) → Option Nat
  | [] => none
  | [p] => some p.1
  | p :: q :: rest =>
    if chunkReaches pos p.2 then some p.1 else pickChunk pos (q :: rest)

/-- A chunk chain is linked when every chunk's `next_hint` names the index of
the following chain element, and the last chunk's hint is empty. -/
def Linked : List (Nat × EChunk) → Prop
  | [] => True
  | [(_, c)] => c.next_hint = none
  | (_, c) :: (k, c2) :: rest => c.next_hint = some k ∧ Linked ((k, c2) :: rest)

/-- Model of `chunk.binary_search_by_key(&pos, |e| e.start).unwrap_err()` on
a start-sorted entry list: the insertion position for `pos`, or `none` (the
`unwrap_err` panic) when some entry already starts at `pos`. -/
def bsearchInsertPos (elems : List Entry) (pos : Nat) : Option Nat :=
  if elems.any (fun e => e.start == pos) then none
  else some (elems.countP (fun e => decide (e.start < pos)))

/-- The `PostAdj` classification of `FreeList::free`. -/
inductive PostAdj where
  | no
  | same
  | next
deriving Repr, DecidableEq

/-- The `post_adj` computation of src/freelist.rs `FreeList::free`: when the
insertion position is past the chunk's last entry, the successor chunk's
first extent yields `Next` only if its `start` equals `pos + count`;
otherwise the in-chunk successor yields `Same` under the same equality.
`next?` is the successor chunk's entry list when a successor exists. -/
def postAdjV2 (elems : List Entry) (insertPos : Nat) (next? : Option (List Entry))
    (pos count : Nat) : PostAdj :=
  let expected := pos + count
  if insertPos == elems.length then
    match next? with
    | some nextElems =>
      match nextElems.head? with
      | some e => if e.start == expected then .next else .no
      | none => .no
    | none => .no
  else
    match elems.get? insertPos with
    | some e => if e.start == expected then .same else .no
    | none => .no

/-- The `post_adj` computation of src/index/freelist.rs `FreeList::free`: its
`Next` arm is the binding pattern `Some(Entry { start: _expected_start, .. })`,
which only checks that the successor chunk has a first extent and does not
compare its `start` with `pos + count`. -/
def postAdjV1 (elems : List Entry) (insertPos : Nat) (next? : Option (List Entry))
    (pos count : Nat) : PostAdj :=
  let expected := pos + count
  if insertPos == elems.length then
    match next? with
    | some nextElems =>
      match nextElems.head? with
      | some _ => .next
      | none => .no
    | none => .no
  else
    match elems.get? insertPos with
    | some e => if e.start == expected then .same else .no
    | none => .no

/-- The `pre_adj` test of `FreeList::free`: a strictly preceding in-chunk
entry ending exactly at `pos`. -/
def preAdjOf (elems : List Entry) (insertPos : Nat) (pos : Nat) : Bool :=
  insertPos != 0 &&
    (match elems.get? (insertPos - 1) with
     | some pre => pre.start + pre.len == pos
     | none => false)

/-- `FreeList::free` (src/freelist.rs): walk to the relevant chunk, classify
pre/post adjacency, then merge or insert; on inserting into a full chunk,
steal one cell from the tail of the chunk's last extent to host a new
extent-chunk and split; when merging empties the successor chunk, unlink it
and recursively free its own cell.  `fuel` bounds the recursion. -/
def FreeList.free : Nat → FreeList → Nat → Nat → Option FreeList
  | 0, _, _, _ => none
  | fuel + 1, s, pos, count => do
    let cid ← findFreeChunk s.chunks pos (s.chunks.length + 1) s.initial
    let chunk ← readChunk s.chunks cid
    -- `let next = iter.next();` — the chunk following the chosen one
    let nextId := chunk.next_hint
    let next? ← match nextId with
      | none => pure none
      | some nid => do
        let nc ← readChunk s.chunks nid
        pure (some nc.elems)
    let insertPos ← bsearchInsertPos chunk.elems pos
    let preAdj := preAdjOf chunk.elems insertPos pos
    let postAdj := postAdjV2 chunk.elems insertPos next? pos count
    match preAdj, postAdj with
    | true, .no => do
      -- `chunk[insert_pos - 1].len += count`
      let pre ← chunk.elems.get? (insertPos - 1)
      setCell s cid { chunk with
        elems := chunk.elems.set (insertPos - 1) ⟨pre.start, pre.len + count⟩ }
    | false, .same => do
      -- `e.start = pos; e.len += count`
      let e ← chunk.elems.get? insertPos
      setCell s cid { chunk with
        elems := chunk.elems.set insertPos ⟨pos, e.len + count⟩ }
    | false, .next => do
      -- the next chunk's first extent absorbs the range
      let nid ← nextId
      let nc ← readChunk s.chunks nid
      let e ← nc.elems.get? 0
      setCell s nid { nc with elems := nc.elems.set 0 ⟨pos, e.len + count⟩ }
    | true, .same => do
      -- remove the in-chunk successor and fold everything into the predecessor
      let (chunk, post?) := chunk.remove insertPos
      let post ← post?
      let pre ← chunk.elems.get? (insertPos - 1)
      setCell s cid { chunk with
        elems := chunk.elems.set (insertPos - 1) ⟨pre.start, pre.len + count + post.len⟩ }
    | true, .next => do
      let nid ← nextId
      let nc ← readChunk s.chunks nid
      let (nc, post?) := nc.remove 0
      let post ← post?
      let rem := nc.elems.length == 0
      let pre ← chunk.elems.get? (insertPos - 1)
      let chunk := { chunk with
        elems := chunk.elems.set (insertPos - 1) ⟨pre.start, pre.len + count + post.len⟩ }
      if rem then
        let chunk := { chunk with next_hint := nc.next_hint }
        let s ← setCell s cid chunk
        let s ← clearCell s nid
        FreeList.free fuel s nid 1
      else
        let s ← setCell s nid nc
        setCell s cid chunk
    | false, .no => do
      let entry : Entry := ⟨pos, count⟩
      let (chunk, succ) := chunk.insert insertPos entry
      match succ with
      | none => setCell s cid chunk
      | some entry => do
        -- the chunk is full: steal one cell from the tail of the last extent
        let last ← chunk.elems.getLast?
        if last.len == 0 then none   -- `last.len -= 1` would underflow (panic)
        else
          let last' : Entry := ⟨last.start, last.len - 1⟩
          let newchunk := last'.start + last'.len
          let chunk := { chunk with
            elems := chunk.elems.set (chunk.elems.length - 1) last' }
          let chunk := if last'.len == 0 then (chunk.pop).1 else chunk
          let next := chunk.next_hint
          -- `&mut self.chunks[newchunk]` panics when out of bounds
          if s.chunks.length ≤ newchunk then none
          else do
            let (chunk, newC) ← chunk.split insertPos
            let newC := { newC with next_hint := next }
            let chunk := { chunk with next_hint := some newchunk }
            let (chunk, r) := chunk.push entry
            match r with
            | some _ => none   -- `.unwrap_none()` panic
            | none => do
              let s ← setCell s cid chunk
              setCell s newchunk newC

/-- Result of `FreeList::allocate`: `Ok(pos)` or `Err((pos, len))`. -/
inductive AllocRes where
  | ok (pos : Nat)
  | err (pos len : Nat)
deriving Repr, DecidableEq

/-- Walk the chunk chain from `cur`, collecting `(index, chunk)` pairs;
`none` when a link dangles or the fuel runs out (a cycle). -/
def chainGo (slab : List Cell) : Nat → Nat → Option (List (Nat × EChunk))
  | 0, _ => none
  | fuel + 1, cur => do
    let c ← readChunk slab cur
    match c.next_hint with
    | none => some [(cur, c)]
    | some nxt => do
      let rest ← chainGo slab fuel nxt
      some ((cur, c) :: rest)

/-- The chunk chain of a freelist, from its root. -/
def chainOf (s : FreeList) : Option (List (Nat × EChunk)) :=
  chainGo s.chunks (s.chunks.length + 1) s.initial

/-- The extent sequence of a freelist, in chain order. -/
def extSeqOf (s : FreeList) : Option (List Entry) :=
  (chainOf s).map (fun cs => cs.flatMap (fun p => p.2.elems))

/-- Total number of free cells recorded by a freelist. -/
def freeCountOf (s : FreeList) : Option Nat :=
  (extSeqOf s).map (fun es => (es.map (fun e => e.len)).sum)

/-- The gap form of the freelist invariant between two extents: the earlier
one ends strictly before the later one starts. -/
def entGap (a b : Entry) : Prop := a.start + a.len < b.start

instance : DecidableRel entGap := fun a b => by unfold entGap; infer_instance

/-- One step of the scan phase of `FreeList::allocate`: the in-chunk best of
one chunk, found by
`iter_mut().enumerate().max_by_key_with_cutoff(|(_, e)| e.len, count)` and
recorded as `(chunk_id, best_len, best_idx)`; `none` for a chunk without
entries (the `filter_map` skip). -/
def scanChunk (count : Nat) (p : Nat × EChunk) : Option (Nat × Nat × Nat) :=
  (maxByKeyWithCutoff (fun ie => ie.2.len) count p.2.elems.enum).map
    (fun m => (p.1, m.2.len, m.1))

/-- The scan phase of `FreeList::allocate` over the whole chain. -/
def allocScan (s : FreeList) (count : Nat) : Option (List (Nat × Nat × Nat)) :=
  (chainOf s).map (List.filterMap (scanChunk count))

/-- The `'goto` selection loop of `FreeList::allocate`: keep the running
best, break as soon as it reaches `count`, and record in `pre` the id of the
last chunk whose iteration finished without breaking. -/
def allocGo (count : Nat) : Nat × Nat × Nat → Option Nat → List (Nat × Nat × Nat) →
    (Nat × Nat × Nat) × Option Nat
  | max, pre, [] => (max, pre)
  | max, pre, item :: rest =>
    if max.2.1 < item.2.1 then
      if count ≤ item.2.1 then (item, pre)
      else allocGo count item (some item.1) rest
    else allocGo count max (some item.1) rest

/-- Selection phase of `FreeList::allocate`; `none` models the early
`return Err((0, 0))` when the scan yields nothing. -/
def allocSelect (count : Nat) (scan : List (Nat × Nat × Nat)) :
    Option ((Nat × Nat × Nat) × Option Nat) :=
  match scan with
  | [] => none
  | first :: rest =>
    some (if count ≤ first.2.1 then (first, none) else allocGo count first none rest)

/-- `FreeList::allocate` (src/freelist.rs): best-fit-with-cutoff scan, then
allocation of `min(count, len)` cells from the start of the chosen extent,
removing the extent when drained; a chunk that becomes empty is unlinked
(spliced out via `pre`, or by promoting its successor to root) and its own
cell is recursively freed. -/
def FreeList.allocate (fuel : Nat) (s : FreeList) (count : Nat) :
    Option (FreeList × AllocRes) := do
  let scan ← allocScan s count
  match allocSelect count scan with
  | none => some (s, .err 0 0)
  | some ((cid, _, idx), pre) => do
    let chunk ← readChunk s.chunks cid
    let freeEntry ← chunk.elems.get? idx
    let toAlloc := min count freeEntry.len
    let start := freeEntry.start
    -- `Entry::allocate`
    let fe : Entry := ⟨freeEntry.start + toAlloc, freeEntry.len - toAlloc⟩
    let chunk := { chunk with elems := chunk.elems.set idx fe }
    let chunk := if fe.len == 0 then (chunk.remove idx).1 else chunk
    let s1 ← setCell s cid chunk
    let s2 ← (if chunk.elems.length == 0 then
        match pre with
        | some p => do
          let nextHint := chunk.next_hint
          let s2 ← clearCell s1 cid
          let preC ← readChunk s2.chunks p
          let s3 ← setCell s2 p { preC with next_hint := nextHint }
          FreeList.free fuel s3 cid 1
        | none =>
          match chunk.next_hint with
          | some nxt => do
            let s2 := { s1 with initial := nxt }
            let s2 ← clearCell s2 cid
            FreeList.free fuel s2 cid 1
          | none => some s1
      else some s1)
    some (s2, if toAlloc == count then .ok start else .err start toAlloc)

/-- The freelist of the C1 scenario: a two-cell slab rooted at cell 0
(`FreeList::new` on a slab of 2 with root index 0), after `allocate(1)`. -/
def c1Result : Option (Option (List Entry) × AllocRes) :=
  (FreeList.new (List.replicate 2 none) 0).bind fun s =>
    (s.allocate 10 1).map fun p => (extSeqOf p.1, p.2)

/-- A consistent three-chunk freelist over a nine-cell slab: metadata in
cells 0, 1, 2; free extents `{3,1}`, `{5,1}`, `{7,2}`; cells 4, 6, 8 in use
by the caller. -/
def c3State : FreeList :=
  ⟨0, [some ⟨entryCap, [⟨3, 1⟩], some 1⟩,
       some ⟨entryCap, [⟨5, 1⟩], some 2⟩,
       some ⟨entryCap, [⟨7, 2⟩], none⟩,
       none, none, none, none, none, none]⟩

/-- The C3 counterexample run: `allocate(2)` on `c3State` (which returns
`Ok(7)` and empties the third extent-chunk), followed by `free(7, 2)`;
recorded as (free count before, allocation result, free count after). -/
def c3Run : Option (Option Nat × AllocRes × Option Nat) :=
  (c3State.allocate 20 2).bind fun p =>
    (FreeList.free 20 p.1 7 2).map fun s => (freeCountOf c3State, p.2, freeCountOf s)

/-- A consistent one-chunk freelist over a six-cell slab: metadata in cell 0,
free extent `{2, 3}` (cells 1 and 5 in use by the caller). -/
def c3SingleState : FreeList :=
  ⟨0, [some ⟨entryCap, [⟨2, 3⟩], none⟩, none, none, none, none, none]⟩

/-- A chunk of an owning sequence (src/anchor.rs), tagged with its allocation
identity so distinctness of chunks is observable; the owning `next_hint`
links are flattened into list order. -/
structure AChunk (α : Type) where
  id : Nat
  elems : List α
deriving Repr, DecidableEq

/-- `AnchorIteratorMut`: the cursor holds the current (most recently yielded)
chunk, `first` marks the not-yet-advanced cursor, and `nextId` is the
allocation counter for fresh chunks. -/
structure AnchorIt (α : Type) where
  chunks : List (AChunk α)
  pos : Option Nat
  first : Bool
  nextId : Nat
deriving Repr, DecidableEq

/-- `Anchor::new_empty().iter_mut()`: one allocated, empty chunk. -/
def AnchorIt.newEmpty (α : Type) : AnchorIt α :=
  ⟨[⟨0, []⟩], some 0, true, 1⟩

/-- `AnchorIteratorMut::next`: on the first call yield the current chunk
without moving; on later calls re-read the current chunk's `next_hint` at
advance time and move to it, or become exhausted.  Yields the id of the newly
current chunk. -/
def AnchorIt.next (s : AnchorIt α) : AnchorIt α × Option Nat :=
  match s.pos with
  | none => (s, none)
  | some p =>
    if s.first then
      ({ s with first := false }, (s.chunks.get? p).map (fun c => c.id))
    else
      match s.chunks.get? (p + 1) with
      | some c => ({ s with pos := some (p + 1) }, some c.id)
      | none => ({ s with pos := none }, none)

/-- `ChunkMut::split(pos)` through the yielded handle: allocate a fresh
chunk, move the tail `[pos, len)` into it, and link it right after the
current chunk (the next-hint swap of src/anchor.rs), leaving the cursor on
the current chunk. -/
def AnchorIt.splitC (s : AnchorIt α) (i : Nat) : Option (AnchorIt α) :=
  match s.pos with
  | none => none
  | some p => do
    let c ← s.chunks.get? p
    if i ≤ c.elems.length then
      let cur : AChunk α := ⟨c.id, c.elems.take i⟩
      let fresh : AChunk α := ⟨s.nextId, c.elems.drop i⟩
      let base := s.chunks.set p cur
      some { s with
        chunks := base.take (p + 1) ++ fresh :: base.drop (p + 1),
        nextId := s.nextId + 1 }
    else none

/-- The C4 scenario (the src/anchor.rs `iter_mut` test): on an
empty-initialized anchor do advance, split at 0, advance, split at 0,
advance, advance, collecting the four yields. -/
def c4Run : Option (Option Nat × Option Nat × Option Nat × Option Nat) := do
  let s := AnchorIt.newEmpty Nat
  let (s, y1) := s.next
  let s ← s.splitC 0
  let (s, y2) := s.next
  let s ← s.splitC 0
  let (s, y3) := s.next
  let (_, y4) := s.next
  some (y1, y2, y3, y4)

/-- Result of `AnchorIteratorMut::search`: `Ok((chunks, pos))` or
`Err((chunks, pos))`. -/
inductive SearchRes where
  | found (chunks pos : Nat)
  | notFound (chunks pos : Nat)
deriving Repr, DecidableEq

/-- Model of `slice::binary_search` on a sorted slice: an index holding the
needle, or the insertion position. -/
def bsearchElem [LinearOrder α] [DecidableEq α] (l : List α) (needle : α) : Sum Nat Nat :=
  if needle ∈ l then .inl (l.indexOf needle)
  else .inr (l.countP (fun y => decide (y < needle)))

/-- The loop of `AnchorIteratorMut::search`: advance chunk by chunk, skipping
chunks with no elements (the `_ => continue` arm), latch `past_min`,
binary-search the matching chunk, and return not-found past the end of the
last chunk; running off the end of the sequence reaches the source's
`unreachable!`, modelled as `none`. -/
def searchGo [LinearOrder α] [DecidableEq α] (needle : α) :
    Bool → Nat → List (AChunk α) → Option SearchRes
  | _, _, [] => none
  | pastMin, count, c :: rest =>
    let count := count + 1
    match c.elems.head?, c.elems.getLast? with
    | some first, some last =>
      let pastMin := pastMin || decide (first ≤ needle)
      if pastMin && decide (needle ≤ last) then
        some (match bsearchElem c.elems needle with
          | .inl p => .found count p
          | .inr p => .notFound count p)
      else if rest.isEmpty then some (.notFound count c.elems.length)
      else searchGo needle pastMin count rest
    | _, _ => searchGo needle pastMin count rest

/-- `AnchorIteratorMut::search` started on a fresh cursor: the first `next`
yields the first chunk, so the loop runs over the whole sequence. -/
def searchM [LinearOrder α] [DecidableEq α] (chunks : List (AChunk α)) (needle : α) :
    Option SearchRes :=
  searchGo needle false 0 chunks

end CL

namespace CL

/-! ## Theorems -/

/-- C2: for every chunk holding element sequence `s` of length `n` and every
`i ≤ n`, `split(i, other)` leaves `self` holding exactly `s[0..i)` with
`self.len = i`, leaves `other` holding exactly `s[i..n)` with
`other.len = n - i` (so their concatenation is `s` and the lengths add up to
`n`), and does not modify `self`'s `next_hint`. -/
theorem c2_split_spec {α : Type} (c : Chunk α) (i : Nat) (h : i ≤ c.elems.length) :
    ∃ c1 c2, c.split i = some (c1, c2) ∧
      c1.elems = c.elems.take i ∧
      c1.elems.length = i ∧
      c2.elems = c.elems.drop i ∧
      c2.elems.length = c.elems.length - i ∧
      c1.elems ++ c2.elems = c.elems ∧
      c1.elems.length + c2.elems.length = c.elems.length ∧
      c1.next_hint = c.next_hint := by
  refine ⟨{ c with elems := c.elems.take i },
          { cap := c.cap, elems := c.elems.drop i, next_hint := none },
          ?_, rfl, ?_, rfl, ?_, ?_, ?_, rfl⟩
  · simp [Chunk.split, h]
  · simp [List.length_take, Nat.min_eq_left h]
  · simp [List.length_drop]
  · simp [List.take_append_drop]
  · simp [List.length_take, List.length_drop, Nat.min_eq_left h, Nat.add_sub_cancel' h]

/-- Witness for C2 at a concrete chunk and index. -/
theorem c2_split_spec_witness :
    1 ≤ (Chunk.mk 4 [10, 20, 30] (some 7) : Chunk Nat).elems.length ∧
    (∃ c1 c2, (Chunk.mk 4 [10, 20, 30] (some 7) : Chunk Nat).split 1 = some (c1, c2) ∧
      c1.elems = [10, 20, 30].take 1 ∧
      c1.elems.length = 1 ∧
      c2.elems = [10, 20, 30].drop 1 ∧
      c2.elems.length = [10, 20, 30].length - 1 ∧
      c1.elems ++ c2.elems = [10, 20, 30] ∧
      c1.elems.length + c2.elems.length = [10, 20, 30].length ∧
      c1.next_hint = some 7) :=
  ⟨by decide, c2_split_spec (Chunk.mk 4 [10, 20, 30] (some 7)) 1 (by decide)⟩

/-- C4: on an empty-initialized anchor, the sequence advance, split at 0,
advance, split at 0, advance, advance yields a chunk on each of the first
three advances — three pairwise distinct chunks, because each advance
re-reads `next_hint` and therefore visits the chunk created by the preceding
split — and yields none on the fourth advance. -/
theorem c4_cursor_sees_splits :
    c4Run = some (some 0, some 1, some 2, none) ∧
    (0 : Nat) ≠ 1 ∧ (0 : Nat) ≠ 2 ∧ (1 : Nat) ≠ 2 := by
  decide

/-- C7 (code bug): `search` on an ordered owning sequence whose only chunk
holds zero elements does not return not-found at the last chunk's end — the
`_ => continue` arm skips the `!chunk.has_next()` check, the loop runs off
the sequence and the source hits `unreachable!` (modelled as `none`).  On a
one-chunk sequence with elements, a needle exceeding every element does get
`Err((1, len))` as specified. -/
theorem c7_search_panics_on_empty_chunk :
    searchM [(⟨0, ([] : List Nat)⟩ : AChunk Nat)] 5 = none ∧
    searchM [(⟨0, [1, 2]⟩ : AChunk Nat)] 5 = some (.notFound 1 2) := by
  decide

/-- C9 counterexample: `insert` with index strictly greater than `len` does
not panic — on an empty chunk with free capacity, `insert(1, v)` returns
normally with `Some(v)` and leaves the chunk unchanged, because the source
returns the element whenever `index_in_bounds && has_space` fails. -/
theorem c9_insert_oob_returns_value :
    (Chunk.mk 510 ([] : List Nat) none).insert 1 42
      = (Chunk.mk 510 [] none, some 42) ∧
    1 > ([] : List Nat).length := by
  decide

/-- C9 amended: `insert(i, v)` with `i > len` returns `v` and leaves the
chunk unchanged (no panic), and `insert` at `i ≤ len` into a full chunk also
returns `v` unchanged. -/
theorem c9_insert_rejections {α : Type} (c : Chunk α) (i : Nat) (v : α) :
    (c.elems.length < i → c.insert i v = (c, some v)) ∧
    (i ≤ c.elems.length → c.cap ≤ c.elems.length → c.insert i v = (c, some v)) := by
  constructor
  · intro h
    unfold Chunk.insert
    rw [if_neg]
    rintro ⟨h1, -⟩
    exact absurd h1 (Nat.not_le.mpr h)
  · intro h1 h2
    unfold Chunk.insert
    rw [if_neg]
    rintro ⟨-, h3⟩
    exact absurd h3 (Nat.not_lt.mpr h2)

/-- Witness for C9 at concrete inputs: an out-of-bounds index on a non-full
chunk, and an in-bounds index on a full chunk. -/
theorem c9_insert_rejections_witness :
    (([] : List Nat).length < 1 →
      (Chunk.mk 510 ([] : List Nat) none).insert 1 42
        = (Chunk.mk 510 [] none, some 42)) ∧
    (1 ≤ [5, 6].length → (Chunk.mk 2 [5, 6] none : Chunk Nat).cap ≤ [5, 6].length →
      (Chunk.mk 2 [5, 6] none : Chunk Nat).insert 1 42
        = (Chunk.mk 2 [5, 6] none, some 42)) :=
  ⟨(c9_insert_rejections (Chunk.mk 510 [] none) 1 42).1,
   (c9_insert_rejections (Chunk.mk 2 [5, 6] none) 1 42).2⟩

/-- C5 counterexample: `FreeList::new` over a one-cell slab with root index 0
leaves the root holding the entry `{start: 0, len: 0}` — the claim says that
for `r = 0` no such entry is present, but the source pushes `{0, initial}`
unconditionally. -/
theorem c5_zero_root_keeps_empty_entry :
    (FreeList.new [none] 0).bind (fun s => (readChunk s.chunks s.initial).map (fun c => c.elems))
      = some [⟨0, 0⟩] ∧
    (⟨0, 0⟩ : Entry) ∈ [(⟨0, 0⟩ : Entry)] ∧ (⟨0, 0⟩ : Entry).len = 0 := by
  decide

/-- C5 amended: for a slab of `N ≤ u32::MAX` cells and root index `r < N`,
`FreeList::new` leaves the root cell an extent-chunk whose entries are
`{0, r}` followed by `{r+1, N-r-1}`, where only the second entry is omitted
when its length would be zero — the first entry is present even when
`r = 0`. -/
theorem c5_new_root_entries (c : List Cell) (r : Nat)
    (h1 : c.length ≤ u32Max) (h2 : r < c.length) :
    ∃ s, FreeList.new c r = some s ∧ s.initial = r ∧
      readChunk s.chunks r = some ⟨entryCap,
        ⟨0, r⟩ :: (if r + 1 < c.length then [⟨r + 1, c.length - (r + 1)⟩] else []),
        none⟩ := by
  have hnew : FreeList.new c r = some ⟨r, c.set r (some ⟨entryCap,
      ⟨0, r⟩ :: (if r + 1 < c.length then [⟨r + 1, c.length - (r + 1)⟩] else []),
      none⟩)⟩ := by
    unfold FreeList.new
    rw [if_neg (Nat.not_lt.mpr h1), if_pos h2]
    by_cases h3 : r + 1 < c.length
    · rw [if_pos h3]
      simp [Chunk.init, Chunk.push, entryCap, if_pos (show 0 < c.length - (r + 1) by omega)]
      rw [if_pos h3]
    · rw [if_neg h3]
      simp [Chunk.init, Chunk.push, entryCap, if_neg (show ¬ 0 < c.length - (r + 1) by omega)]
      rw [if_neg h3]
  refine ⟨_, hnew, rfl, ?_⟩
  simp only [readChunk, List.get?_eq_getElem?, List.getElem?_set, if_pos rfl, h2, if_true]
  rfl

/-- Witness for C5 at a concrete slab: five cells, root index 2. -/
theorem c5_new_root_entries_witness :
    (List.replicate 5 (none : Cell)).length ≤ u32Max ∧
    2 < (List.replicate 5 (none : Cell)).length ∧
    (∃ s, FreeList.new (List.replicate 5 none) 2 = some s ∧ s.initial = 2 ∧
      readChunk s.chunks 2 = some ⟨entryCap,
        ⟨0, 2⟩ :: (if 2 + 1 < (List.replicate 5 (none : Cell)).length then
          [⟨2 + 1, (List.replicate 5 (none : Cell)).length - (2 + 1)⟩] else []),
        none⟩) :=
  ⟨by decide, by decide, c5_new_root_entries (List.replicate 5 none) 2 (by decide) (by decide)⟩

/-- C1 (code bug): starting from `FreeList::new` over a two-cell slab with
root index 0, the very first `allocate(1)` returns `Ok(1)` and leaves the
extent sequence `[{0, 0}]`, which violates the claimed invariant that every
extent has `len ≥ 1`: the zero-length `{0, 0}` entry pushed by
`FreeList::new` is never removed. -/
theorem c1_zero_len_extent_reachable :
    c1Result = some (some [⟨0, 0⟩], .ok 1) ∧
    ¬ (∀ e ∈ [(⟨0, 0⟩ : Entry)], 1 ≤ e.len) := by
  decide

/-- C6 counterexample: with the insertion position at the chunk's length and
a successor chunk whose first extent starts at 5 while `pos + count = 3`, the
src/index/freelist.rs version classifies `Next` (it only checks that a first
extent exists) while the src/freelist.rs version classifies `No` — so `Next`
is not equivalent to `start == pos + count` in the older version and the two
versions disagree on this state. -/
theorem c6_versions_disagree :
    postAdjV1 [⟨0, 1⟩] 1 (some [⟨5, 1⟩]) 2 1 = .next ∧
    postAdjV2 [⟨0, 1⟩] 1 (some [⟨5, 1⟩]) 2 1 = .no ∧
    ([(⟨5, 1⟩ : Entry)].head?).map (fun e => e.start) = some 5 ∧
    (5 : Nat) ≠ 2 + 1 := by
  decide

/-- C6 amended: when the insertion position equals the chunk's length and a
successor chunk exists, the src/freelist.rs version classifies `Next` iff the
successor's first extent starts exactly at `pos + count`, while the
src/index/freelist.rs version classifies `Next` iff the successor has any
first extent; the two agree exactly when the successor's first extent (when
present) starts at `pos + count`. -/
theorem c6_post_adj_characterization (elems nextElems : List Entry)
    (insertPos pos count : Nat) (h : insertPos = elems.length) :
    (postAdjV2 elems insertPos (some nextElems) pos count = .next ↔
      ∃ e, nextElems.head? = some e ∧ e.start = pos + count) ∧
    (postAdjV1 elems insertPos (some nextElems) pos count = .next ↔
      nextElems.head?.isSome) := by
  subst h
  cases nextElems with
  | nil =>
    constructor
    · simp [postAdjV2]
    · simp [postAdjV1]
  | cons e rest =>
    constructor
    · by_cases he : e.start = pos + count <;> simp [postAdjV2, he]
    · simp [postAdjV1]

/-- Witness for C6 at a concrete state where both classifications fire. -/
theorem c6_post_adj_characterization_witness :
    ((1 : Nat) = [(⟨0, 1⟩ : Entry)].length) ∧
    ((postAdjV2 [⟨0, 1⟩] 1 (some [⟨3, 4⟩]) 2 1 = .next ↔
      ∃ e, [(⟨3, 4⟩ : Entry)].head? = some e ∧ e.start = 2 + 1) ∧
     (postAdjV1 [⟨0, 1⟩] 1 (some [⟨3, 4⟩]) 2 1 = .next ↔
      ([(⟨3, 4⟩ : Entry)].head?).isSome)) :=
  ⟨by decide, c6_post_adj_characterization [⟨0, 1⟩] [⟨3, 4⟩] 1 2 1 (by decide)⟩

/-- C3 counterexample: `c3State` is a consistent freelist (three nonempty
extent-chunks, globally gap-sorted extents of positive length, free count 4);
`allocate(2)` returns `Ok(7)` but drains extent `{7, 2}` and empties its
chunk, whose cell 2 is reclaimed into the free space, so the immediately
following `free(7, 2)` yields free count 5, not the original 4. -/
theorem c3_count_not_restored :
    extSeqOf c3State = some [⟨3, 1⟩, ⟨5, 1⟩, ⟨7, 2⟩] ∧
    List.Pairwise entGap [(⟨3, 1⟩ : Entry), ⟨5, 1⟩, ⟨7, 2⟩] ∧
    (∀ e ∈ [(⟨3, 1⟩ : Entry), ⟨5, 1⟩, ⟨7, 2⟩], 1 ≤ e.len) ∧
    c3Run = some (some 4, .ok 7, some 5) ∧
    (5 : Nat) ≠ 4 := by
  refine ⟨by decide, by decide, by decide, ?_, by decide⟩
  decide

end CL

namespace CL

/-- The running maximum of the `max_by_key_with_cutoff` loop is either the
seed or one of the scanned items. -/
theorem maxGo_self_or_mem [LinearOrder β] (f : α → β) (C : β) (m : β × α) (l : List α) :
    (maxGo f C m l).2 = m.2 ∨ (maxGo f C m l).2 ∈ l := by
  induction l generalizing m with
  | nil => left; rfl
  | cons y ys ih =>
    unfold maxGo
    by_cases h1 : m.1 < f y
    · rw [if_pos h1]
      by_cases h2 : C ≤ f y
      · rw [if_pos h2]; right; simp
      · rw [if_neg h2]
        rcases ih (f y, y) with h | h
        · right; simp [h]
        · right; exact List.mem_cons_of_mem _ h
    · rw [if_neg h1]
      rcases ih m with h | h
      · left; exact h
      · right; exact List.mem_cons_of_mem _ h

/-- While the running maximum is below the cutoff, the loop returns the first
scanned item whose key reaches the cutoff. -/
theorem maxGo_find [LinearOrder β] (f : α → β) (C : β) (m : β × α) (l : List α) (y0 : α)
    (hm : m.1 < C) (hf : l.find? (fun y => decide (C ≤ f y)) = some y0) :
    (maxGo f C m l).2 = y0 := by
  induction l generalizing m with
  | nil => simp at hf
  | cons y ys ih =>
    by_cases h2 : C ≤ f y
    · have hy : y = y0 := by
        rw [List.find?_cons_of_pos _ (by simpa using h2)] at hf
        simpa using hf
      subst hy
      unfold maxGo
      rw [if_pos (lt_of_lt_of_le hm h2), if_pos h2]
    · have hf' : ys.find? (fun y => decide (C ≤ f y)) = some y0 := by
        rwa [List.find?_cons_of_neg _ (by simpa using h2)] at hf
      unfold maxGo
      by_cases h1 : m.1 < f y
      · rw [if_pos h1, if_neg h2]
        exact ih (f y, y) (not_le.mp h2) hf'
      · rw [if_neg h1]
        exact ih m hm hf'

/-- When every scanned key is below the cutoff, the loop computes a maximum of
the seed and the scanned items. -/
theorem maxGo_max [LinearOrder β] (f : α → β) (C : β) (m : β × α) (l : List α)
    (hall : ∀ y ∈ l, f y < C) (hm : m.1 = f m.2) :
    (maxGo f C m l).1 = f (maxGo f C m l).2 ∧ m.1 ≤ (maxGo f C m l).1 ∧
      ∀ y ∈ l, f y ≤ (maxGo f C m l).1 := by
  induction l generalizing m with
  | nil => exact ⟨hm, le_refl _, by simp⟩
  | cons y ys ih =>
    have hy : f y < C := hall y (List.mem_cons_self y ys)
    unfold maxGo
    by_cases h1 : m.1 < f y
    · rw [if_pos h1, if_neg (not_le.mpr hy)]
      obtain ⟨e1, e2, e3⟩ := ih (f y, y) (fun z hz => hall z (List.mem_cons_of_mem _ hz)) rfl
      refine ⟨e1, le_trans (le_of_lt h1) e2, ?_⟩
      intro z hz
      rcases List.mem_cons.mp hz with h | h
      · subst h; exact e2
      · exact e3 z h
    · rw [if_neg h1]
      obtain ⟨e1, e2, e3⟩ := ih m (fun z hz => hall z (List.mem_cons_of_mem _ hz)) hm
      refine ⟨e1, e2, ?_⟩
      intro z hz
      rcases List.mem_cons.mp hz with h | h
      · subst h; exact le_trans (not_lt.mp h1) e2
      · exact e3 z h

/-- C8: `max_by_key_with_cutoff` returns `None` exactly on an empty input;
when some item's key reaches the cutoff it returns the first such item in
input order (the short-circuiting, first-wins behaviour, equal to `find?`);
and when every key is below the cutoff it returns an item of maximum key. -/
theorem c8_max_by_key_with_cutoff_spec [LinearOrder β] (f : α → β) (C : β) (l : List α) :
    (maxByKeyWithCutoff f C l = none ↔ l = []) ∧
    ((∃ y ∈ l, C ≤ f y) →
      maxByKeyWithCutoff f C l = l.find? (fun y => decide (C ≤ f y))) ∧
    ((∀ y ∈ l, f y < C) → ∀ r, maxByKeyWithCutoff f C l = some r →
      r ∈ l ∧ ∀ y ∈ l, f y ≤ f r) := by
  refine ⟨?_, ?_, ?_⟩
  · cases l with
    | nil => simp [maxByKeyWithCutoff]
    | cons x xs =>
      unfold maxByKeyWithCutoff
      by_cases hx : C ≤ f x
      · simp [hx]
      · simp [hx]
  · intro hex
    cases l with
    | nil => simp at hex
    | cons x xs =>
      simp only [maxByKeyWithCutoff]
      by_cases hx : C ≤ f x
      · rw [if_pos hx, List.find?_cons_of_pos _ (by simpa using hx)]
      · rw [if_neg hx, List.find?_cons_of_neg _ (by simpa using hx)]
        have hex' : (xs.find? (fun y => decide (C ≤ f y))).isSome := by
          rw [List.find?_isSome]
          rcases hex with ⟨y, hy, hCy⟩
          rcases List.mem_cons.mp hy with h | h
          · exact absurd (h ▸ hCy) hx
          · exact ⟨y, h, by simpa using hCy⟩
        obtain ⟨y0, hy0⟩ := Option.isSome_iff_exists.mp hex'
        rw [hy0, maxGo_find f C (f x, x) xs y0 (not_le.mp hx) hy0]
  · intro hall r hr
    cases l with
    | nil => simp [maxByKeyWithCutoff] at hr
    | cons x xs =>
      have hx : f x < C := hall x (List.mem_cons_self x xs)
      simp only [maxByKeyWithCutoff] at hr
      rw [if_neg (not_le.mpr hx)] at hr
      have hre : (maxGo f C (f x, x) xs).2 = r := by simpa using hr
      have hmem : r ∈ x :: xs := by
        rcases maxGo_self_or_mem f C (f x, x) xs with h | h
        · rw [hre] at h; exact h ▸ List.mem_cons_self x xs
        · rw [hre] at h; exact List.mem_cons_of_mem _ h
      obtain ⟨e1, e2, e3⟩ := maxGo_max f C (f x, x) xs
        (fun z hz => hall z (List.mem_cons_of_mem _ hz)) rfl
      refine ⟨hmem, ?_⟩
      intro z hz
      have hfr : (maxGo f C (f x, x) xs).1 = f r := by rw [e1, hre]
      rcases List.mem_cons.mp hz with h | h
      · subst h; rw [← hfr]; exact e2
      · rw [← hfr]; exact e3 z h

/-- Witness for C8 on the source's own `max_cutoff` test data. -/
theorem c8_max_by_key_with_cutoff_spec_witness :
    (∃ y ∈ [1, 2, 4, 5], 3 ≤ id y) ∧
    maxByKeyWithCutoff id 3 [1, 2, 4, 5]
      = [1, 2, 4, 5].find? (fun y => decide (3 ≤ id y)) ∧
    (∀ y ∈ [1, 2, 4, 5], id y < 6) ∧
    ((5 : Nat) ∈ [1, 2, 4, 5] ∧ ∀ y ∈ [1, 2, 4, 5], id y ≤ id 5) :=
  ⟨by decide,
   (c8_max_by_key_with_cutoff_spec id 3 [1, 2, 4, 5]).2.1 (by decide),
   by decide,
   (c8_max_by_key_with_cutoff_spec id 6 [1, 2, 4, 5]).2.2 (by decide) 5 (by decide)⟩

/-- C10: `FreeList::new(slab, initial)` mutates only the cell at `initial`
(every other cell of the slab is unchanged and the slab length is
preserved), and it panics before initializing any cell when `initial` is out
of bounds or the slab exceeds `u32::MAX` cells — in the source both the
`try_into().expect(..)` and the `c[initial]` indexing happen before the root
cell is written. -/
theorem c10_new_frame (c : List Cell) (i : Nat) :
    (c.length ≤ u32Max → i < c.length →
      ∃ s, FreeList.new c i = some s ∧ s.chunks.length = c.length ∧
        ∀ j, j ≠ i → s.chunks.get? j = c.get? j) ∧
    (u32Max < c.length ∨ c.length ≤ i → FreeList.new c i = none) := by
  constructor
  · intro h1 h2
    unfold FreeList.new
    rw [if_neg (Nat.not_lt.mpr h1), if_pos h2]
    refine ⟨_, rfl, ?_, ?_⟩
    · simp [List.length_set]
    · intro j hj
      simp [List.get?_eq_getElem?, List.getElem?_set_ne (Ne.symm hj)]
  · rintro (h | h)
    · unfold FreeList.new
      rw [if_pos h]
    · unfold FreeList.new
      by_cases hb : u32Max < c.length
      · rw [if_pos hb]
      · rw [if_neg hb, if_neg (Nat.not_lt.mpr h)]

/-- Witness for C10: the frame property on a two-cell slab, the
out-of-bounds panic, and the oversized-slab panic. -/
theorem c10_new_frame_witness :
    ([none, none] : List Cell).length ≤ u32Max ∧
    0 < ([none, none] : List Cell).length ∧
    (∃ s, FreeList.new [none, none] 0 = some s ∧
      s.chunks.length = ([none, none] : List Cell).length ∧
      ∀ j, j ≠ 0 → s.chunks.get? j = ([none, none] : List Cell).get? j) ∧
    FreeList.new [none] 5 = none ∧
    FreeList.new (List.replicate (u32Max + 1) none) 0 = none :=
  ⟨by decide, by decide,
   (c10_new_frame [none, none] 0).1 (by decide) (by decide),
   (c10_new_frame [none] 5).2 (Or.inr (by decide)),
   (c10_new_frame (List.replicate (u32Max + 1) none) 0).2
     (Or.inl (by rw [List.length_replicate]; exact Nat.lt_succ_self _))⟩

end CL

namespace CL

/-- A successful chain walk yields at least one chunk. -/
theorem chainGo_ne_nil {slab : List Cell} {fuel cur : Nat} {l : List (Nat × EChunk)}
    (h : chainGo slab fuel cur = some l) : l ≠ [] := by
  cases fuel with
  | zero => simp [chainGo] at h
  | succ f =>
    cases hrc : readChunk slab cur with
    | none => simp [chainGo, hrc] at h
    | some c =>
      cases hn : c.next_hint with
      | none =>
        simp [chainGo, hrc, hn] at h
        simp [← h]
      | some nxt =>
        simp only [chainGo, hrc, hn, Option.bind_eq_bind, Option.some_bind] at h
        cases hrest : chainGo slab f nxt with
        | none => rw [hrest] at h; simp at h
        | some rest =>
          rw [hrest] at h
          simp at h
          simp [← h]

/-- Every chunk collected by the chain walk is readable from the slab at its
recorded index. -/
theorem chainGo_read {slab : List Cell} :
    ∀ {fuel cur : Nat} {l : List (Nat × EChunk)},
      chainGo slab fuel cur = some l → ∀ p ∈ l, readChunk slab p.1 = some p.2 := by
  intro fuel
  induction fuel with
  | zero => intro cur l h; simp [chainGo] at h
  | succ f ih =>
    intro cur l h p hp
    cases hrc : readChunk slab cur with
    | none => simp [chainGo, hrc] at h
    | some c =>
      cases hn : c.next_hint with
      | none =>
        simp [chainGo, hrc, hn] at h
        subst h
        rcases List.mem_singleton.mp hp with rfl
        exact hrc
      | some nxt =>
        simp only [chainGo, hrc, hn, Option.bind_eq_bind, Option.some_bind] at h
        cases hrest : chainGo slab f nxt with
        | none => rw [hrest] at h; simp at h
        | some rest =>
          rw [hrest] at h
          simp at h
          subst h
          rcases List.mem_cons.mp hp with rfl | hp'
          · exact hrc
          · exact ih hrest p hp'

/-- Overwriting one chunk of the slab with a chunk holding the same
`next_hint` maps the chain pointwise: the walk takes the same route and
reads the replacement at the overwritten index. -/
theorem chainGo_set {slab : List Cell} {cid : Nat} {C0 C0' : EChunk}
    (hc : readChunk slab cid = some C0) (hn : C0'.next_hint = C0.next_hint) :
    ∀ {fuel cur : Nat} {l : List (Nat × EChunk)},
      chainGo slab fuel cur = some l →
      chainGo (slab.set cid (some C0')) fuel cur
        = some (l.map (fun p => if p.1 = cid then (p.1, C0') else p)) := by
  have hlt : cid < slab.length := by
    rcases h' : slab.get? cid with _ | cell
    · rw [readChunk, h'] at hc; simp at hc
    · exact (List.get?_eq_some.mp h').1
  have hread : ∀ j, readChunk (slab.set cid (some C0')) j
      = if j = cid then some C0' else readChunk slab j := by
    intro j
    by_cases hj : j = cid
    · subst hj
      simp [readChunk, List.get?_eq_getElem?, List.getElem?_set, hlt]
    · simp [readChunk, List.get?_eq_getElem?, List.getElem?_set, Ne.symm hj, hj]
  intro fuel
  induction fuel with
  | zero => intro cur l h; simp [chainGo] at h
  | succ f ih =>
    intro cur l h
    cases hrc : readChunk slab cur with
    | none => simp [chainGo, hrc] at h
    | some c =>
      by_cases hcur : cur = cid
      · subst hcur
        have hcC : c = C0 := by rw [hrc] at hc; exact Option.some_injective _ hc
        subst hcC
        have hrc' : readChunk (slab.set cur (some C0')) cur = some C0' := by
          rw [hread]; simp
        cases hnx : c.next_hint with
        | none =>
          simp [chainGo, hrc, hnx] at h
          subst h
          simp [chainGo, hrc', hn, hnx]
        | some nxt =>
          simp only [chainGo, hrc, hnx, Option.bind_eq_bind, Option.some_bind] at h
          cases hrest : chainGo slab f nxt with
          | none => rw [hrest] at h; simp at h
          | some rest =>
            rw [hrest] at h
            simp at h
            subst h
            simp only [chainGo, hrc', hn, hnx, Option.bind_eq_bind, Option.some_bind,
              ih hrest]
            simp
      · have hrc' : readChunk (slab.set cid (some C0')) cur = some c := by
          rw [hread, if_neg hcur, hrc]
        cases hnx : c.next_hint with
        | none =>
          simp [chainGo, hrc, hnx] at h
          subst h
          simp [chainGo, hrc', hnx, hcur]
        | some nxt =>
          simp only [chainGo, hrc, hnx, Option.bind_eq_bind, Option.some_bind] at h
          cases hrest : chainGo slab f nxt with
          | none => rw [hrest] at h; simp at h
          | some rest =>
            rw [hrest] at h
            simp at h
            subst h
            simp only [chainGo, hrc', hnx, Option.bind_eq_bind, Option.some_bind,
              ih hrest]
            simp [hcur]

/-- On a slab whose chain walk succeeds, `findFreeChunk` is the first chunk
of the chain reaching `pos`, or the last chunk (`pickChunk`). -/
theorem findFreeChunk_eq_pick {slab : List Cell} {pos : Nat} :
    ∀ {fuel cur : Nat} {l : List (Nat × EChunk)},
      chainGo slab fuel cur = some l →
      findFreeChunk slab pos fuel cur = pickChunk pos l := by
  intro fuel
  induction fuel with
  | zero => intro cur l h; simp [chainGo] at h
  | succ f ih =>
    intro cur l h
    cases hrc : readChunk slab cur with
    | none => simp [chainGo, hrc] at h
    | some c =>
      cases hnx : c.next_hint with
      | none =>
        simp [chainGo, hrc, hnx] at h
        subst h
        by_cases hr : chunkReaches pos c <;>
          simp [findFreeChunk, hrc, hnx, pickChunk, hr]
      | some nxt =>
        simp only [chainGo, hrc, hnx, Option.bind_eq_bind, Option.some_bind] at h
        cases hrest : chainGo slab f nxt with
        | none => rw [hrest] at h; simp at h
        | some rest =>
          rw [hrest] at h
          simp at h
          subst h
          obtain ⟨r, rs, rfl⟩ : ∃ r rs, rest = r :: rs := by
            cases rest with
            | nil => exact absurd rfl (chainGo_ne_nil hrest)
            | cons r rs => exact ⟨r, rs, rfl⟩
          by_cases hr : chunkReaches pos c
          · simp [findFreeChunk, hrc, hnx, pickChunk, hr]
          · simp [findFreeChunk, hrc, hnx, pickChunk, hr, ih hrest]

/-- The first element of a successful chain walk carries the start index. -/
theorem chainGo_head {slab : List Cell} {fuel cur : Nat} {l : List (Nat × EChunk)}
    (h : chainGo slab fuel cur = some l) :
    ∃ c rest, l = (cur, c) :: rest := by
  cases fuel with
  | zero => simp [chainGo] at h
  | succ f =>
    cases hrc : readChunk slab cur with
    | none => simp [chainGo, hrc] at h
    | some c =>
      cases hnx : c.next_hint with
      | none =>
        simp [chainGo, hrc, hnx] at h
        exact ⟨c, [], h.symm⟩
      | some nxt =>
        simp only [chainGo, hrc, hnx, Option.bind_eq_bind, Option.some_bind] at h
        cases hrest : chainGo slab f nxt with
        | none => rw [hrest] at h; simp at h
        | some rest =>
          rw [hrest] at h
          simp at h
          exact ⟨c, rest, h.symm⟩

/-- A successful chain walk yields a linked chain. -/
theorem chainGo_linked {slab : List Cell} :
    ∀ {fuel cur : Nat} {l : List (Nat × EChunk)},
      chainGo slab fuel cur = some l → Linked l := by
  intro fuel
  induction fuel with
  | zero => intro cur l h; simp [chainGo] at h
  | succ f ih =>
    intro cur l h
    cases hrc : readChunk slab cur with
    | none => simp [chainGo, hrc] at h
    | some c =>
      cases hnx : c.next_hint with
      | none =>
        simp [chainGo, hrc, hnx] at h
        subst h
        simpa [Linked] using hnx
      | some nxt =>
        simp only [chainGo, hrc, hnx, Option.bind_eq_bind, Option.some_bind] at h
        cases hrest : chainGo slab f nxt with
        | none => rw [hrest] at h; simp at h
        | some rest =>
          rw [hrest] at h
          simp at h
          subst h
          obtain ⟨c2, rest2, rfl⟩ := chainGo_head hrest
          exact ⟨hnx, ih hrest⟩

/-- In a linked chain, a chunk's `next_hint` dictates what follows it: the
chunk is last exactly when its hint is empty, and otherwise the next chain
element carries the hinted index. -/
theorem linked_at :
    ∀ {l1 : List (Nat × EChunk)} {j : Nat} {c : EChunk} {l2 : List (Nat × EChunk)},
      Linked (l1 ++ (j, c) :: l2) →
      (c.next_hint = none → l2 = []) ∧
      (∀ n, c.next_hint = some n → ∃ c2 l3, l2 = (n, c2) :: l3) := by
  intro l1
  induction l1 with
  | nil =>
    intro j c l2 h
    cases l2 with
    | nil =>
      refine ⟨fun _ => rfl, fun n hn => ?_⟩
      simp only [List.nil_append] at h
      rw [Linked] at h
      rw [h] at hn
      cases hn
    | cons p l3 =>
      simp only [List.nil_append] at h
      obtain ⟨p1, p2⟩ := p
      rw [Linked] at h
      refine ⟨fun hn => ?_, fun n hn => ?_⟩
      · rw [hn] at h
        cases h.1
      · rw [h.1] at hn
        cases hn
        exact ⟨p2, l3, rfl⟩
  | cons p l1' ih =>
    intro j c l2 h
    obtain ⟨p1, p2⟩ := p
    cases hl : l1' ++ (j, c) :: l2 with
    | nil => exact absurd hl (by simp)
    | cons q rest =>
      obtain ⟨q1, q2⟩ := q
      rw [List.cons_append, hl, Linked] at h
      have := h.2
      rw [← hl] at this
      exact ih this
/-- The selection loop of `FreeList::allocate` returns its seed or a scanned
item. -/
theorem allocGo_mem (count : Nat) :
    ∀ (max : Nat × Nat × Nat) (pre : Option Nat) (l : List (Nat × Nat × Nat)),
      (allocGo count max pre l).1 = max ∨ (allocGo count max pre l).1 ∈ l := by
  intro max pre l
  induction l generalizing max pre with
  | nil => left; rfl
  | cons item rest ih =>
    unfold allocGo
    by_cases h1 : max.2.1 < item.2.1
    · rw [if_pos h1]
      by_cases h2 : count ≤ item.2.1
      · rw [if_pos h2]; right; simp
      · rw [if_neg h2]
        rcases ih item (some item.1) with h | h
        · right; rw [h]; simp
        · right; exact List.mem_cons_of_mem _ h
    · rw [if_neg h1]
      rcases ih max (some item.1) with h | h
      · left; exact h
      · right; exact List.mem_cons_of_mem _ h

/-- The extent chosen by `FreeList::allocate` comes from the scan. -/
theorem allocSelect_mem {count : Nat} {scan : List (Nat × Nat × Nat)}
    {item : Nat × Nat × Nat} {pre : Option Nat}
    (h : allocSelect count scan = some (item, pre)) : item ∈ scan := by
  cases scan with
  | nil => simp [allocSelect] at h
  | cons first rest =>
    simp only [allocSelect, Option.some_inj] at h
    by_cases h1 : count ≤ first.2.1
    · rw [if_pos h1] at h
      cases h
      simp
    · rw [if_neg h1] at h
      have h2 : (allocGo count first none rest).1 = item := by rw [h]
      rcases allocGo_mem count first none rest with h3 | h3
    
      · rw [h2] at h3; rw [h3]; simp
      · rw [h2] at h3; exact List.mem_cons_of_mem _ h3

/-- `max_by_key_with_cutoff` returns one of its inputs. -/
theorem mbkwc_mem [LinearOrder β] (f : α → β) (C : β) {l : List α} {r : α}
    (h : maxByKeyWithCutoff f C l = some r) : r ∈ l := by
  cases l with
  | nil => simp [maxByKeyWithCutoff] at h
  | cons x xs =>
    simp only [maxByKeyWithCutoff] at h
    by_cases hx : C ≤ f x
    · rw [if_pos hx] at h
      cases h
      simp
    · rw [if_neg hx] at h
      have h2 : (maxGo f C (f x, x) xs).2 = r := by simpa using h
      rcases maxGo_self_or_mem f C (f x, x) xs with h3 | h3
      · rw [h2] at h3; rw [h3]; simp
      · rw [h2] at h3; exact List.mem_cons_of_mem _ h3

/-- A scan item of `FreeList::allocate` records a chunk's id together with
the index and length of one of its entries. -/
theorem scanChunk_entry {count : Nat} {p : Nat × EChunk} {cid l idx : Nat}
    (h : scanChunk count p = some (cid, l, idx)) :
    p.1 = cid ∧ ∃ e, p.2.elems.get? idx = some e ∧ e.len = l := by
  unfold scanChunk at h
  rcases Option.map_eq_some'.mp h with ⟨m, hm, hg⟩
  obtain ⟨h1, h2, h3⟩ : p.1 = cid ∧ m.2.len = l ∧ m.1 = idx := by
    refine ⟨congrArg Prod.fst hg, ?_, ?_⟩
    · have := congrArg (fun q => q.2.1) hg; simpa using this
    · have := congrArg (fun q => q.2.2) hg; simpa using this
  have hmem : m ∈ p.2.elems.enum := mbkwc_mem _ _ hm
  have hget : p.2.elems.get? m.1 = some m.2 := List.mem_enum_iff_get?.mp hmem
  rw [h3] at hget
  exact ⟨h1, m.2, hget, h2⟩

/-- Setting a valid index decomposes the list around the written element. -/
theorem set_decomp {α : Type} :
    ∀ (l : List α) (n : Nat) (a : α), n < l.length →
      l.set n a = l.take n ++ a :: l.drop (n + 1) := by
  intro l
  induction l with
  | nil => intro n a h; simp at h
  | cons x xs ih =>
    intro n a h
    cases n with
    | zero => simp
    | succ m =>
      simp only [List.set_cons_succ, List.take_succ_cons, List.drop_succ_cons,
        List.cons_append, List.cons.injEq, true_and]
      exact ih m a (by simpa using h)

/-- Writing back the value already stored at an index leaves the list
unchanged. -/
theorem set_of_get? {α : Type} {l : List α} {n : Nat} {a : α}
    (h : l.get? n = some a) : l.set n a = l := by
  apply List.ext_getElem?
  intro m
  rw [List.getElem?_set]
  by_cases hm : n = m
  · subst hm
    rw [if_pos rfl, if_pos (List.get?_eq_some.mp h).1]
    rw [List.get?_eq_getElem?] at h
    exact h.symm
  · rw [if_neg hm]

/-- Members of a prefix have an index below the cut. -/
theorem mem_take_get? {α : Type} {l : List α} {n : Nat} {a : α}
    (h : a ∈ l.take n) : ∃ i, i < n ∧ l.get? i = some a := by
  rcases List.mem_iff_get?.mp h with ⟨i, hi⟩
  rw [List.get?_eq_getElem?, List.getElem?_take] at hi
  by_cases hin : i < n
  · rw [if_pos hin] at hi
    exact ⟨i, hin, by rw [List.get?_eq_getElem?]; exact hi⟩
  · rw [if_neg hin] at hi
    cases hi

/-- Members of a suffix have an index past the cut. -/
theorem mem_drop_get? {α : Type} {l : List α} {n : Nat} {a : α}
    (h : a ∈ l.drop n) : ∃ i, l.get? (n + i) = some a := by
  rcases List.mem_iff_get?.mp h with ⟨i, hi⟩
  rw [List.get?_eq_getElem?, List.getElem?_drop] at hi
  exact ⟨i, by rw [List.get?_eq_getElem?]; exact hi⟩

/-- A pairwise relation holds between entries at increasing indices. -/
theorem pairwise_get? {α : Type} {R : α → α → Prop} {l : List α}
    (hp : l.Pairwise R) {i j : Nat} {a b : α} (hij : i < j)
    (ha : l.get? i = some a) (hb : l.get? j = some b) : R a b := by
  obtain ⟨hi, ha'⟩ := List.get?_eq_some.mp ha
  obtain ⟨hj, hb'⟩ := List.get?_eq_some.mp hb
  have := List.pairwise_iff_get.mp hp ⟨i, hi⟩ ⟨j, hj⟩ hij
  rw [ha', hb'] at this
  exact this

/-- A readable chunk sits in a live slab cell. -/
theorem readChunk_get? {slab : List Cell} {i : Nat} {c : EChunk}
    (h : readChunk slab i = some c) : slab.get? i = some (some c) := by
  unfold readChunk at h
  cases hg : slab.get? i with
  | none => rw [hg] at h; cases h
  | some cell =>
    rw [hg] at h
    simp at h
    subst h
    rfl

/-- The walk of `FreeList::free` stops at the first chunk of the chain that
reaches `pos`. -/
theorem pickChunk_first {pos : Nat} :
    ∀ {pre : List (Nat × EChunk)} {cid : Nat} {C : EChunk} {post : List (Nat × EChunk)},
      (∀ p ∈ pre, chunkReaches pos p.2 = false) →
      chunkReaches pos C = true →
      pickChunk pos (pre ++ (cid, C) :: post) = some cid := by
  intro pre
  induction pre with
  | nil =>
    intro cid C post hpre hC
    cases post with
    | nil => rfl
    | cons q r => simp [pickChunk, hC]
  | cons p pre' ih =>
    intro cid C post hpre hC
    have hp : chunkReaches pos p.2 = false := hpre p (by simp)
    rw [List.cons_append]
    cases hrest : pre' ++ (cid, C) :: post with
    | nil => exact absurd hrest (by simp)
    | cons q rest2 =>
      have hstep : pickChunk pos (p :: q :: rest2) = pickChunk pos (q :: rest2) := by
        simp only [pickChunk, hp, Bool.false_eq_true, if_false]
      rw [hstep]
      rw [← hrest]
      exact ih (fun q hq => hpre q (List.mem_cons_of_mem _ hq)) hC

/-- The allocation step of the C3 round trip: when the selection picks the
entry at `(cid, idx)` and that extent strictly exceeds `count`,
`FreeList::allocate` shifts the extent's start up by `count`, shrinks it by
`count`, changes nothing else, and returns `Ok(start)`. -/
theorem allocate_survival {S : FreeList} {count cid l idx : Nat} {pre : Option Nat}
    {cs : List (Nat × EChunk)} {C0 : EChunk} {e : Entry} (fuel : Nat)
    (hchain : chainOf S = some cs)
    (hsel : allocSelect count (cs.filterMap (scanChunk count)) = some ((cid, l, idx), pre))
    (hC0 : readChunk S.chunks cid = some C0)
    (he : C0.elems.get? idx = some e)
    (hlen : e.len = l)
    (hsurv : count < l) :
    FreeList.allocate fuel S count
      = some ({ S with chunks := S.chunks.set cid (some { C0 with
          elems := C0.elems.set idx ⟨e.start + count, e.len - count⟩ }) }, .ok e.start) := by
  have hscan : allocScan S count = some (cs.filterMap (scanChunk count)) := by
    rw [allocScan, hchain]
    rfl
  have hmin : min count e.len = count := Nat.min_eq_left (by omega)
  have hfe : (e.len - count == 0) = false := by
    rw [beq_eq_false_iff_ne]
    omega
  have hlt : cid < S.chunks.length := (List.get?_eq_some.mp (readChunk_get? hC0)).1
  have hidx : idx < C0.elems.length := (List.get?_eq_some.mp he).1
  have hlenne : ((C0.elems.set idx ⟨e.start + count, e.len - count⟩).length == 0) = false := by
    rw [beq_eq_false_iff_ne, List.length_set]
    omega
  have hcc : (count == count) = true := beq_self_eq_true count
  simp only [FreeList.allocate, hscan, Option.bind_eq_bind, Option.some_bind, hsel,
    hC0, he, hmin, hfe, Bool.false_eq_true, if_false, hlenne, hcc, if_true]
  rw [setCell, if_pos hlt]
  simp

/-- The free step of the C3 round trip: freeing exactly the just-allocated
range `(e.start, count)` walks back to the same chunk, classifies
`(pre_adj, post_adj) = (false, Same)`, and merging restores the extent — and
with it the whole freelist state. -/
theorem free_restores {S : FreeList} {count cid idx : Nat}
    {cs pre0 post0 : List (Nat × EChunk)} {C0 : EChunk} {e : Entry} (g : Nat)
    (hchain : chainOf S = some cs)
    (hdecomp : cs = pre0 ++ (cid, C0) :: post0)
    (hnodup : (cs.map Prod.fst).Nodup)
    (hpair : (cs.flatMap (fun p => p.2.elems)).Pairwise entGap)
    (hC0 : readChunk S.chunks cid = some C0)
    (he : C0.elems.get? idx = some e)
    (hcnt : 1 ≤ count)
    (hsurv : count < e.len) :
    FreeList.free (g + 1)
      { S with chunks := S.chunks.set cid (some { C0 with
          elems := C0.elems.set idx ⟨e.start + count, e.len - count⟩ }) }
      e.start count = some S := by
  have hidx : idx < C0.elems.length := (List.get?_eq_some.mp he).1
  have hlt : cid < S.chunks.length := (List.get?_eq_some.mp (readChunk_get? hC0)).1
  have hmemE : e ∈ C0.elems := List.get?_mem he
  have hchainGo : chainGo S.chunks (S.chunks.length + 1) S.initial = some cs := hchain
  have hchain' : chainGo
      (S.chunks.set cid (some { C0 with
        elems := C0.elems.set idx ⟨e.start + count, e.len - count⟩ }))
      (S.chunks.length + 1) S.initial
      = some (cs.map (fun p => if p.1 = cid
          then (p.1, { C0 with elems := C0.elems.set idx ⟨e.start + count, e.len - count⟩ })
          else p)) :=
    @chainGo_set S.chunks cid C0
      { C0 with elems := C0.elems.set idx ⟨e.start + count, e.len - count⟩ }
      hC0 rfl (S.chunks.length + 1) S.initial cs hchainGo
  have hnodup2 := hnodup
  rw [hdecomp, List.map_append, List.nodup_append] at hnodup2
  have hnotpre : ∀ p ∈ pre0, p.1 ≠ cid := by
    intro p hp heq
    have h1 : cid ∈ pre0.map Prod.fst := heq ▸ List.mem_map_of_mem Prod.fst hp
    exact hnodup2.2.2 h1 (by simp)
  have hnotpost : ∀ p ∈ post0, p.1 ≠ cid := by
    intro p hp heq
    have h2 := hnodup2.2.1
    rw [List.map_cons, List.nodup_cons] at h2
    have h1 : cid ∈ post0.map Prod.fst := by
      rw [← heq]
      exact List.mem_map_of_mem Prod.fst hp
    exact h2.1 h1
  have hcs' : cs.map (fun p => if p.1 = cid
          then (p.1, { C0 with elems := C0.elems.set idx ⟨e.start + count, e.len - count⟩ })
          else p)
      = pre0 ++ (cid, { C0 with
          elems := C0.elems.set idx ⟨e.start + count, e.len - count⟩ }) :: post0 := by
    rw [hdecomp, List.map_append, List.map_cons]
    congr 1
    · calc pre0.map _ = pre0.map id := List.map_congr_left
            (fun p hp => by rw [if_neg (hnotpre p hp)]; rfl)
        _ = pre0 := List.map_id pre0
    · congr 1
      · rw [if_pos rfl]
      · calc post0.map _ = post0.map id := List.map_congr_left
              (fun p hp => by rw [if_neg (hnotpost p hp)]; rfl)
          _ = post0 := List.map_id post0
  -- pairwise decomposition of the extent sequence
  have hflat : cs.flatMap (fun p => p.2.elems)
      = pre0.flatMap (fun p => p.2.elems)
        ++ (C0.elems ++ post0.flatMap (fun p => p.2.elems)) := by
    rw [hdecomp, List.flatMap_append, List.flatMap_cons]
  rw [hflat] at hpair
  obtain ⟨hpairPre, hpair2, hPreRest⟩ := List.pairwise_append.mp hpair
  obtain ⟨hpairC0, hpairPost, hC0Post⟩ := List.pairwise_append.mp hpair2
  -- the walk of free lands on the modified chunk
  have hwalkPre : ∀ p ∈ pre0, chunkReaches e.start p.2 = false := by
    intro p hp
    unfold chunkReaches
    cases hl : p.2.elems.getLast? with
    | none => rfl
    | some lst =>
      have hlst : lst ∈ p.2.elems := List.mem_of_mem_getLast? hl
      have hgap : entGap lst e := hPreRest lst
        (List.mem_flatMap.mpr ⟨p, hp, hlst⟩)
        e (List.mem_append.mpr (Or.inl hmemE))
      exact decide_eq_false (by unfold entGap at hgap; omega)
  have hreach : chunkReaches e.start
      { C0 with elems := C0.elems.set idx ⟨e.start + count, e.len - count⟩ } = true := by
    unfold chunkReaches
    have hlen1 : (C0.elems.set idx ⟨e.start + count, e.len - count⟩).length
        = C0.elems.length := List.length_set _ _ _
    rw [List.getLast?_eq_get?]
    simp only [hlen1]
    by_cases hm : idx = C0.elems.length - 1
    · rw [List.get?_eq_getElem?, List.getElem?_set, if_pos hm, if_pos (hm ▸ hidx)]
      refine decide_eq_true ?_
      show e.start ≤ e.start + count + (e.len - count)
      omega
    · have hmlt : C0.elems.length - 1 < C0.elems.length := by omega
      rw [List.get?_eq_getElem?, List.getElem?_set, if_neg hm]
      cases hlast : C0.elems.get? (C0.elems.length - 1) with
      | none =>
        rw [List.get?_eq_getElem?] at hlast
        rw [hlast]
        exact absurd hlast (by
          rw [← List.get?_eq_getElem?]
          intro hcon
          have := (List.get?_eq_none.mp hcon)
          omega)
      | some lst =>
        rw [List.get?_eq_getElem?] at hlast
        rw [hlast]
        have hgap : entGap e lst := pairwise_get? hpairC0
          (by omega : idx < C0.elems.length - 1) he
          (by rw [List.get?_eq_getElem?]; exact hlast)
        exact decide_eq_true (by unfold entGap at hgap; omega)
  have hlenset : (S.chunks.set cid (some { C0 with
      elems := C0.elems.set idx ⟨e.start + count, e.len - count⟩ })).length
      = S.chunks.length := List.length_set _ _ _
  have hfind : findFreeChunk
      (S.chunks.set cid (some { C0 with
        elems := C0.elems.set idx ⟨e.start + count, e.len - count⟩ }))
      e.start
      ((S.chunks.set cid (some { C0 with
        elems := C0.elems.set idx ⟨e.start + count, e.len - count⟩ })).length + 1)
      S.initial = some cid := by
    rw [hlenset, findFreeChunk_eq_pick hchain', hcs']
    exact pickChunk_first hwalkPre hreach
  have hrc' : readChunk
      (S.chunks.set cid (some { C0 with
        elems := C0.elems.set idx ⟨e.start + count, e.len - count⟩ }))
      cid = some { C0 with
        elems := C0.elems.set idx ⟨e.start + count, e.len - count⟩ } := by
    simp [readChunk, List.get?_eq_getElem?, List.getElem?_set, hlt]
  -- entries strictly before the modified one end before the freed range
  have hbefore : ∀ i a, i < idx → C0.elems.get? i = some a →
      a.start + a.len < e.start := by
    intro i a hi ha
    have := pairwise_get? hpairC0 hi ha he
    unfold entGap at this
    exact this
  -- entries strictly after it start past the freed range
  have hafter : ∀ i a, idx < i → C0.elems.get? i = some a →
      e.start + e.len < a.start := by
    intro i a hi ha
    have := pairwise_get? hpairC0 hi he ha
    unfold entGap at this
    exact this
  have hbs : bsearchInsertPos
      (C0.elems.set idx ⟨e.start + count, e.len - count⟩) e.start = some idx := by
    have hany : ((C0.elems.set idx ⟨e.start + count, e.len - count⟩).any
        (fun x => x.start == e.start)) = false := by
      rw [List.any_eq_false]
      intro x hx
      rcases List.mem_iff_get?.mp hx with ⟨i, hi⟩
      rw [List.get?_eq_getElem?, List.getElem?_set] at hi
      by_cases hii : idx = i
      · rw [if_pos hii, if_pos (hii ▸ hidx)] at hi
        cases hi
        show ¬ (e.start + count == e.start) = true
        rw [beq_iff_eq]
        omega
      · rw [if_neg hii] at hi
        rw [← List.get?_eq_getElem?] at hi
        rcases Nat.lt_or_ge i idx with hlt2 | hge
        · have := hbefore i x hlt2 hi
          show ¬ (x.start == e.start) = true
          rw [beq_iff_eq]
          omega
        · have hgt : idx < i := by omega
          have := hafter i x hgt hi
          show ¬ (x.start == e.start) = true
          rw [beq_iff_eq]
          omega
    have hcount : (C0.elems.set idx ⟨e.start + count, e.len - count⟩).countP
        (fun x => decide (x.start < e.start)) = idx := by
      rw [set_decomp C0.elems idx _ hidx, List.countP_append, List.countP_cons]
      have h1 : (C0.elems.take idx).countP (fun x => decide (x.start < e.start))
          = idx := by
        have hlen2 : (C0.elems.take idx).length = idx := by
          rw [List.length_take]
          omega
        have hall : ∀ a ∈ C0.elems.take idx,
            (fun x => decide (x.start < e.start)) a = true := by
          intro a ha
          rcases mem_take_get? ha with ⟨i, hi2, hget⟩
          exact decide_eq_true (by have := hbefore i a hi2 hget; omega)
        calc (C0.elems.take idx).countP (fun x => decide (x.start < e.start))
            = (C0.elems.take idx).length := List.countP_eq_length.mpr hall
          _ = idx := hlen2
      have h2 : (C0.elems.drop (idx + 1)).countP
          (fun x => decide (x.start < e.start)) = 0 := by
        rw [List.countP_eq_zero]
        intro a ha
        rcases mem_drop_get? ha with ⟨i, hget⟩
        have := hafter (idx + 1 + i) a (by omega) hget
        simp only [decide_eq_true_eq]
        omega
      have h3 : (decide ((⟨e.start + count, e.len - count⟩ : Entry).start < e.start))
          = false := by
        refine decide_eq_false ?_
        show ¬ (e.start + count < e.start)
        omega
      rw [h1, h2, h3]
      simp
    rw [bsearchInsertPos, hany]
    simp only [Bool.false_eq_true, if_false, hcount]
  have hpre_adj : preAdjOf
      (C0.elems.set idx ⟨e.start + count, e.len - count⟩) idx e.start = false := by
    unfold preAdjOf
    cases idx with
    | zero => rfl
    | succ k =>
      have hk : k < C0.elems.length := by omega
      obtain ⟨a, hga⟩ : ∃ a, C0.elems.get? k = some a := by
        cases hgk : C0.elems.get? k with
        | none => exact absurd (List.get?_eq_none.mp hgk) (by omega)
        | some a => exact ⟨a, rfl⟩
      have hget : (C0.elems.set (k + 1) ⟨e.start + count, e.len - count⟩).get? (k + 1 - 1)
          = some a := by
        simp only [Nat.add_sub_cancel]
        rw [List.get?_eq_getElem?, List.getElem?_set,
          if_neg (by omega : ¬ (k + 1 = k)), ← List.get?_eq_getElem?]
        exact hga
      rw [hget]
      have h5 : (a.start + a.len == e.start) = false := by
        rw [beq_eq_false_iff_ne]
        have := hbefore k a (by omega) hga
        omega
      simp [h5]
  have hpost : ∀ nq, postAdjV2
      (C0.elems.set idx ⟨e.start + count, e.len - count⟩) idx nq e.start count
      = PostAdj.same := by
    intro nq
    unfold postAdjV2
    have hlen1 : (C0.elems.set idx ⟨e.start + count, e.len - count⟩).length
        = C0.elems.length := List.length_set _ _ _
    have hne : (idx == (C0.elems.set idx ⟨e.start + count, e.len - count⟩).length)
        = false := by
      rw [hlen1, beq_eq_false_iff_ne]
      omega
    rw [hne]
    have hget : (C0.elems.set idx ⟨e.start + count, e.len - count⟩).get? idx
        = some ⟨e.start + count, e.len - count⟩ := by
      rw [List.get?_eq_getElem?, List.getElem?_set, if_pos rfl, if_pos hidx]
    simp only [Bool.false_eq_true, if_false, hget]
    simp
  have hgetfe : (C0.elems.set idx ⟨e.start + count, e.len - count⟩).get? idx
      = some ⟨e.start + count, e.len - count⟩ := by
    rw [List.get?_eq_getElem?, List.getElem?_set, if_pos rfl, if_pos hidx]
  have h8 : e.len - count + count = e.len := Nat.sub_add_cancel (le_of_lt hsurv)
  have hX : (C0.elems.set idx ⟨e.start + count, e.len - count⟩).set idx
      ⟨e.start, e.len - count + count⟩ = C0.elems := by
    rw [List.set_set, h8]
    exact set_of_get? he
  have hclose : ∀ nh : Option Nat, C0.next_hint = nh →
      setCell
        { initial := S.initial,
          chunks := S.chunks.set cid (some { C0 with
            elems := C0.elems.set idx ⟨e.start + count, e.len - count⟩,
            next_hint := nh }) }
        cid
        { C0 with
          elems := (C0.elems.set idx ⟨e.start + count, e.len - count⟩).set idx
            ⟨e.start, e.len - count + count⟩,
          next_hint := nh } = some S := by
    intro nh hnh
    subst hnh
    rw [setCell]
    have hcond : cid < (S.chunks.set cid (some { C0 with
        elems := C0.elems.set idx ⟨e.start + count, e.len - count⟩,
        next_hint := C0.next_hint })).length := by
      rw [List.length_set]
      exact hlt
    dsimp only
    rw [if_pos hcond]
    rw [List.set_set]
    have hB : ({ C0 with
        elems := (C0.elems.set idx ⟨e.start + count, e.len - count⟩).set idx
          ⟨e.start, e.len - count + count⟩,
        next_hint := C0.next_hint } : EChunk) = C0 := by
      rw [hX]
    rw [hB, set_of_get? (readChunk_get? hC0)]
  simp only [FreeList.free, hfind, Option.bind_eq_bind, Option.some_bind, hrc']
  cases hnx : C0.next_hint with
  | none =>
    simp only [Option.pure_def, Option.some_bind, hbs, hpre_adj, hpost, hgetfe]
    exact hclose none hnx
  | some nid =>
    have hlinked : Linked (pre0 ++ (cid, { C0 with
        elems := C0.elems.set idx ⟨e.start + count, e.len - count⟩ }) :: post0) := by
      have := chainGo_linked hchain'
      rwa [hcs'] at this
    obtain ⟨nc, post0', hpost0⟩ := (linked_at hlinked).2 nid hnx
    have hmem' : (nid, nc) ∈ cs.map (fun p => if p.1 = cid
        then (p.1, { C0 with elems := C0.elems.set idx ⟨e.start + count, e.len - count⟩ })
        else p) := by
      rw [hcs', hpost0]
      exact List.mem_append.mpr (Or.inr (by simp))
    have hnread : readChunk
        (S.chunks.set cid (some { C0 with
          elems := C0.elems.set idx ⟨e.start + count, e.len - count⟩ }))
        nid = some nc := chainGo_read hchain' (nid, nc) hmem'
    rw [hnx] at hnread
    simp only [hnread, Option.pure_def, Option.some_bind, hbs, hpre_adj, hpost, hgetfe]
    exact hclose (some nid) hnx


/-- C3 amended: over every consistent freelist state (well-formed chain,
distinct chunk cells, globally gap-sorted extents), when the best-fit
selection of `allocate(count)` picks an extent strictly longer than `count`
(so the extent survives the allocation), `allocate` returns `Ok(start)` of
that extent and the immediately following `free(start, count)` restores the
freelist to exactly the state before the allocate — in particular the total
free count is restored.  The unamended claim — for every successful
allocation — is refuted by the counterexample, where draining an extent
empties its chunk and the reclaimed metadata cell changes the count. -/
theorem c3_alloc_free_roundtrip (S : FreeList) (count cid l idx : Nat)
    (pre : Option Nat) (cs : List (Nat × EChunk)) (fuel g : Nat)
    (hchain : chainOf S = some cs)
    (hnodup : (cs.map Prod.fst).Nodup)
    (hpair : (cs.flatMap (fun p => p.2.elems)).Pairwise entGap)
    (hsel : allocSelect count (cs.filterMap (scanChunk count))
      = some ((cid, l, idx), pre))
    (hcnt : 1 ≤ count) (hsurv : count < l) :
    ∃ S' start,
      FreeList.allocate fuel S count = some (S', .ok start) ∧
      FreeList.free (g + 1) S' start count = some S := by
  have hitem : (cid, l, idx) ∈ cs.filterMap (scanChunk count) := allocSelect_mem hsel
  rcases List.mem_filterMap.mp hitem with ⟨p, hp, hscan⟩
  obtain ⟨hp1, e, he, hlen⟩ := scanChunk_entry hscan
  obtain ⟨pid, C0⟩ := p
  have hpid : pid = cid := hp1
  subst hpid
  have hmem : (pid, C0) ∈ cs := hp
  have hC0 : readChunk S.chunks pid = some C0 := chainGo_read hchain (pid, C0) hmem
  obtain ⟨pre0, post0, hdecomp⟩ := List.append_of_mem hmem
  have hsurv2 : count < e.len := by rw [hlen]; exact hsurv
  exact ⟨_, e.start, allocate_survival fuel hchain hsel hC0 he hlen hsurv,
    free_restores g hchain hdecomp hnodup hpair hC0 he hcnt hsurv2⟩

/-- Witness for C3 on a concrete consistent freelist: one extent-chunk in
cell 0 with the single extent `{2, 3}`; `allocate(1)` then `free` restores
the state. -/
theorem c3_alloc_free_roundtrip_witness :
    chainOf c3SingleState = some [(0, ⟨entryCap, [⟨2, 3⟩], none⟩)] ∧
    (([(0, (⟨entryCap, [⟨2, 3⟩], none⟩ : EChunk))].map Prod.fst).Nodup) ∧
    (([(0, (⟨entryCap, [⟨2, 3⟩], none⟩ : EChunk))].flatMap
      (fun p => p.2.elems)).Pairwise entGap) ∧
    allocSelect 1 ([(0, (⟨entryCap, [⟨2, 3⟩], none⟩ : EChunk))].filterMap (scanChunk 1))
      = some ((0, 3, 0), none) ∧
    (1 : Nat) ≤ 1 ∧ (1 : Nat) < 3 ∧
    (∃ S' start,
      FreeList.allocate 10 c3SingleState 1 = some (S', .ok start) ∧
      FreeList.free (5 + 1) S' start 1 = some c3SingleState) :=
  ⟨by decide, by decide, by decide, by decide, by decide, by decide,
   c3_alloc_free_roundtrip c3SingleState 1 0 3 0 none
     [(0, ⟨entryCap, [⟨2, 3⟩], none⟩)] 10 5
     (by decide) (by decide) (by decide) (by decide) (by decide) (by decide)⟩

end CL
